import Mathlib

/-!
Verification development for the MIET schedule parser
(`calendar_automation.py`).  The Python source is shallowly embedded:
strings are `List Char` (Python strings compare and slice by code
points), Python integers are `Int`, datetimes are minute counts and
dates are day counts in the proleptic Gregorian calendar.  Fallible
steps return `Option`/`Except`.
-/

/-- Embedding of the Python class `ScheduleEntry` (one scheduled period).
Field names follow the source: `class_name`, `week_code`, `room_number`,
`week_day`, `slot_number`, `duration`, `teacher`.  `duration` is
initialised to 1 by the constructor (see `mkScheduleEntry`). -/
structure ScheduleEntry where
  class_name : List Char
  week_code : Int
  room_number : List Char
  week_day : Int
  slot_number : Int
  duration : Int
  teacher : List Char
deriving DecidableEq, Repr

/-- The `ScheduleEntry.__init__` constructor: `duration` starts at 1. -/
def mkScheduleEntry (class_name : List Char) (week_code : Int)
    (room_number : List Char) (week_day : Int) (slot_number : Int)
    (teacher : List Char) : ScheduleEntry :=
  { class_name := class_name, week_code := week_code,
    room_number := room_number, week_day := week_day,
    slot_number := slot_number, duration := 1, teacher := teacher }

/-- Python string `<` : lexicographic comparison of code points
(`''` is smaller than any nonempty string). -/
def strLt : List Char → List Char → Bool
  | [], [] => false
  | [], _ :: _ => true
  | _ :: _, [] => false
  | a :: as, b :: bs => if a < b then true else if b < a then false else strLt as bs

/-- Embedding of `ScheduleEntry.__lt__`: Python tuple comparison of
`(week_code, week_day, slot_number, room_number, class_name)`. -/
def keyLt (x y : ScheduleEntry) : Bool :=
  if x.week_code ≠ y.week_code then decide (x.week_code < y.week_code)
  else if x.week_day ≠ y.week_day then decide (x.week_day < y.week_day)
  else if x.slot_number ≠ y.slot_number then decide (x.slot_number < y.slot_number)
  else if x.room_number ≠ y.room_number then strLt x.room_number y.room_number
  else strLt x.class_name y.class_name

/-- The non-strict order used to model the stable ascending
`class_list.sort()` (which only calls `__lt__`). -/
def entryLe (x y : ScheduleEntry) : Bool := ! keyLt y x

/-- Embedding of `ScheduleEntry.is_aligned_class`: same name, week code,
week day, room and teacher, and slot numbers differing by exactly 1
(the Python test is `abs(self.slot_number - other.slot_number) == 1`). -/
def is_aligned_class (x y : ScheduleEntry) : Bool :=
  x.class_name == y.class_name &&
  x.week_code == y.week_code &&
  x.week_day == y.week_day &&
  x.room_number == y.room_number &&
  x.teacher == y.teacher &&
  (x.slot_number - y.slot_number).natAbs == 1

/-- `class_list[i].duration += 1` applied to the left entry of a merge. -/
def bumpDuration (e : ScheduleEntry) : ScheduleEntry :=
  { e with duration := e.duration + 1 }

/-- All fields equal except possibly `duration` (the only field the
merger ever mutates). -/
def sameFields (x y : ScheduleEntry) : Prop :=
  x.class_name = y.class_name ∧ x.week_code = y.week_code ∧
  x.room_number = y.room_number ∧ x.week_day = y.week_day ∧
  x.slot_number = y.slot_number ∧ x.teacher = y.teacher

/-- Generic insertion of `a` into `l`, before the first element `b`
with `le a b`.  Used to model Python's stable sorts. -/
def ordInsert (le : α → α → Bool) (a : α) : List α → List α
  | [] => [a]
  | b :: l => if le a b then a :: b :: l else b :: ordInsert le a l

/-- Generic insertion sort; with a `le` of the form `! lt b a` it is
stable and ascending, that is, it produces the same list as Python's
stable `list.sort()`, which only calls `lt`. -/
def isort (le : α → α → Bool) : List α → List α
  | [] => []
  | a :: l => ordInsert le a (isort le l)

/-- The scanning loop of `merge_list_of_classes`, in accumulator form:
hold the current left entry `a`; when the next entry is aligned with it,
increment `a`'s duration and drop that entry (the Python `i -= 1; i += 1`
keeps the index on `a`, so `a` is then re-examined against the new right
neighbour); otherwise emit `a` and continue from the next entry. -/
def mergeScan : ScheduleEntry → List ScheduleEntry → List ScheduleEntry
  | a, [] => [a]
  | a, b :: rest =>
    if is_aligned_class a b then mergeScan (bumpDuration a) rest
    else a :: mergeScan b rest

/-- Embedding of `merge_list_of_classes`: sort by the identity key
(`__lt__`), then run the merging scan. -/
def merge_list_of_classes (class_list : List ScheduleEntry) : List ScheduleEntry :=
  match isort entryLe class_list with
  | [] => []
  | a :: rest => mergeScan a rest

theorem mem_ordInsert (le : α → α → Bool) (a : α) (l : List α) (x : α) :
    x ∈ ordInsert le a l ↔ x = a ∨ x ∈ l := by
  induction l with
  | nil => simp [ordInsert]
  | cons b t ih =>
    simp only [ordInsert]
    by_cases h : le a b = true
    · simp [h]
    · simp [h, ih]
      tauto

theorem mem_isort (le : α → α → Bool) (l : List α) (x : α) :
    x ∈ isort le l ↔ x ∈ l := by
  induction l with
  | nil => simp [isort]
  | cons a t ih => simp [isort, mem_ordInsert, ih]

theorem sameFields_refl (x : ScheduleEntry) : sameFields x x := by
  simp [sameFields]

theorem sameFields_bump (x : ScheduleEntry) : sameFields x (bumpDuration x) := by
  simp [sameFields, bumpDuration]

theorem sameFields_trans {x y z : ScheduleEntry}
    (h₁ : sameFields x y) (h₂ : sameFields y z) : sameFields x z := by
  obtain ⟨a1, a2, a3, a4, a5, a6⟩ := h₁
  obtain ⟨b1, b2, b3, b4, b5, b6⟩ := h₂
  exact ⟨a1.trans b1, a2.trans b2, a3.trans b3, a4.trans b4, a5.trans b5, a6.trans b6⟩

theorem is_aligned_congr_right {b h : ScheduleEntry} (a : ScheduleEntry)
    (hs : sameFields b h) : is_aligned_class a h = is_aligned_class a b := by
  obtain ⟨e1, e2, e3, e4, e5, e6⟩ := hs
  simp [is_aligned_class, e1, e2, e3, e4, e5, e6]

/-- The head of a merge scan differs from the starting entry only in
`duration`. -/
theorem mergeScan_head (rest : List ScheduleEntry) :
    ∀ b : ScheduleEntry, ∃ h t, mergeScan b rest = h :: t ∧ sameFields b h := by
  induction rest with
  | nil =>
    intro b
    exact ⟨b, [], rfl, sameFields_refl b⟩
  | cons c rs ih =>
    intro b
    by_cases hal : is_aligned_class b c = true
    · obtain ⟨h, t, heq, hsf⟩ := ih (bumpDuration b)
      exact ⟨h, t, by simp [mergeScan, hal, heq],
        sameFields_trans (sameFields_bump b) hsf⟩
    · exact ⟨b, mergeScan c rs, by simp [mergeScan, hal], sameFields_refl b⟩

/-- No two consecutive entries of a merge scan's output are aligned. -/
theorem mergeScan_chain (rest : List ScheduleEntry) :
    ∀ a : ScheduleEntry,
      List.Chain' (fun x y => is_aligned_class x y = false) (mergeScan a rest) := by
  induction rest with
  | nil =>
    intro a
    simp [mergeScan]
  | cons b rs ih =>
    intro a
    by_cases hal : is_aligned_class a b = true
    · simpa [mergeScan, hal] using ih (bumpDuration a)
    · obtain ⟨h, t, heq, hsf⟩ := mergeScan_head rs b
      simp only [mergeScan, hal, if_false, Bool.false_eq_true]
      rw [List.chain'_cons']
      constructor
      · intro y hy
        rw [heq] at hy
        simp only [List.head?_cons, Option.mem_def, Option.some.injEq] at hy
        subst hy
        rw [is_aligned_congr_right a hsf]
        simpa using hal
      · exact ih b

/-- Every entry produced by a merge scan agrees, outside `duration`,
with the starting entry or with an entry of the scanned list. -/
theorem mergeScan_fields (rest : List ScheduleEntry) :
    ∀ a e, e ∈ mergeScan a rest → ∃ e₀, (e₀ = a ∨ e₀ ∈ rest) ∧ sameFields e₀ e := by
  induction rest with
  | nil =>
    intro a e he
    simp only [mergeScan, List.mem_singleton] at he
    exact ⟨a, Or.inl rfl, he ▸ sameFields_refl a⟩
  | cons b rs ih =>
    intro a e he
    by_cases hal : is_aligned_class a b = true
    · simp only [mergeScan, hal, if_true] at he
      obtain ⟨e₀, h₀, hsf⟩ := ih (bumpDuration a) e he
      rcases h₀ with h₀ | h₀
      · exact ⟨a, Or.inl rfl, sameFields_trans (sameFields_bump a) (h₀ ▸ hsf)⟩
      · exact ⟨e₀, Or.inr (List.mem_cons_of_mem b h₀), hsf⟩
    · simp only [mergeScan, hal, if_false, List.mem_cons, Bool.false_eq_true] at he
      rcases he with he | he
      · exact ⟨a, Or.inl rfl, he ▸ sameFields_refl a⟩
      · obtain ⟨e₀, h₀, hsf⟩ := ih b e he
        rcases h₀ with h₀ | h₀
        · exact ⟨b, Or.inr (List.mem_cons_self b rs), h₀ ▸ hsf⟩
        · exact ⟨e₀, Or.inr (List.mem_cons_of_mem b h₀), hsf⟩

/-- The two-character separator `" ["` used by `get_class_name` and
`base_class_name` to detect the bracketed class-type tag. -/
def sepBr : List Char := [' ', '[']

/-- Python's substring containment test `pat in s` (on code points). -/
def containsSeq (pat : List Char) : List Char → Bool
  | [] => pat.isEmpty
  | c :: rest => pat.isPrefixOf (c :: rest) || containsSeq pat rest

/-- Python's `name.split(" [")`, specialised to the fixed two-character
separator `" ["`: scan left to right, cutting at each non-overlapping
occurrence of the separator. -/
def pySplitBr : List Char → List (List Char)
  | [] => [[]]
  | [c] => [[c]]
  | c1 :: c2 :: rest =>
    if c1 = ' ' ∧ c2 = '[' then [] :: pySplitBr rest
    else
      match pySplitBr (c2 :: rest) with
      | [] => [[c1]]
      | t :: ts => (c1 :: t) :: ts

/-- Fuelled body of Python's `s.replace(old, new)`: replace each
non-overlapping occurrence of `old`, scanning left to right.  The fuel
is the length of the scanned string, which bounds the recursion; the
caller `pyReplace` supplies enough fuel.  (Python's special behaviour
for `old = ""` is not modelled; the source only calls `replace` with a
pattern beginning `" ["`.) -/
def pyReplaceF (old new : List Char) : Nat → List Char → List Char
  | 0, s => s
  | fuel + 1, s =>
    match s with
    | [] => []
    | c :: rest =>
      if old ≠ [] ∧ old.isPrefixOf (c :: rest) then
        new ++ pyReplaceF old new fuel (List.drop old.length (c :: rest))
      else c :: pyReplaceF old new fuel rest

/-- Python's `s.replace(old, new)` (for nonempty `old`). -/
def pyReplace (s old new : List Char) : List Char := pyReplaceF old new s.length s

/-- The comparison behind `sorted(class_names_cast, key=len, reverse=True)`:
pair `p` comes no later than pair `q` when its key is at least as long.
Insertion sort with this relation reproduces Python's stable
longest-key-first ordering. -/
def lenDescLe (p q : List Char × List Char) : Bool := decide (q.1.length ≤ p.1.length)

/-- The alias-selection loop of `get_class_name`: first pair of the
(longest-key-first) list whose key occurs in `long_name`. -/
def firstMatching : List (List Char × List Char) → List Char → Option (List Char × List Char)
  | [], _ => none
  | p :: ps, s => if containsSeq p.1 s then some p else firstMatching ps s

/-- Embedding of `get_class_name(name, class_names_cast)`: split off the
`" ["` tag when present, replace the matched alias key (longest first)
by its alias, fall back to the bare title when nothing matched or the
alias came out empty, and re-append the tag. -/
def get_class_name (name : List Char) (class_names_cast : List (List Char × List Char)) :
    List Char :=
  let hasTag := containsSeq sepBr name
  let class_type := if hasTag then sepBr ++ (pySplitBr name).getD 1 [] else []
  let long_name := if hasTag then pyReplace name class_type [] else name
  let res_name :=
    match firstMatching (isort lenDescLe class_names_cast) long_name with
    | some p => p.2
    | none => []
  (if res_name = [] then long_name else res_name) ++ class_type

/-- What `get_class_name` does to the bare title (before the tag is
re-appended): the alias of the longest matching key, except that an
empty alias (or no match at all) yields the bare title itself. -/
def pickBase (base : List Char) (cast : List (List Char × List Char)) : List Char :=
  match firstMatching (isort lenDescLe cast) base with
  | some p => if p.2 = [] then base else p.2
  | none => base

theorem isPrefixOf_refl (l : List Char) : l.isPrefixOf l = true := by
  induction l with
  | nil => simp [List.isPrefixOf]
  | cons a as ih => simp [List.isPrefixOf, ih]

theorem isPrefixOf_append_self (l t : List Char) : l.isPrefixOf (l ++ t) = true := by
  induction l with
  | nil => simp [List.isPrefixOf]
  | cons a as ih => simp [List.isPrefixOf, ih]

theorem containsSeq_cons (pat : List Char) (c : Char) (rest : List Char) :
    containsSeq pat (c :: rest) = (pat.isPrefixOf (c :: rest) || containsSeq pat rest) := by
  rfl

theorem containsSeq_append_sepBr (base tail : List Char) :
    containsSeq sepBr (base ++ sepBr ++ tail) = true := by
  induction base with
  | nil =>
    simp only [List.nil_append]
    rw [show sepBr ++ tail = ' ' :: ('[' :: tail) from rfl, containsSeq_cons]
    rw [show (' ' :: ('[' :: tail)) = sepBr ++ tail from rfl]
    simp [isPrefixOf_append_self]
  | cons c b ih =>
    rw [show (c :: b) ++ sepBr ++ tail = c :: (b ++ sepBr ++ tail) by simp]
    rw [containsSeq_cons, ih]
    simp

theorem containsSeq_cons_false {pat : List Char} {c : Char} {rest : List Char}
    (h : containsSeq pat (c :: rest) = false) :
    pat.isPrefixOf (c :: rest) = false ∧ containsSeq pat rest = false := by
  rw [containsSeq_cons] at h
  simpa using h

theorem pySplitBr_clean (s : List Char) (h : containsSeq sepBr s = false) :
    pySplitBr s = [s] := by
  induction s with
  | nil => rfl
  | cons c rest ih =>
    obtain ⟨hpre, hrest⟩ := containsSeq_cons_false h
    cases rest with
    | nil => rfl
    | cons d rs =>
      have hcd : ¬ (c = ' ' ∧ d = '[') := by
        intro ⟨hc, hd⟩
        subst hc; subst hd
        simp [sepBr, List.isPrefixOf] at hpre
      rw [pySplitBr, if_neg hcd, ih hrest]

theorem pySplitBr_sep_cons (tail : List Char) :
    pySplitBr (' ' :: '[' :: tail) = [] :: pySplitBr tail := by
  rw [pySplitBr, if_pos ⟨rfl, rfl⟩]

theorem pySplitBr_append (base tail : List Char)
    (hb : containsSeq sepBr base = false) :
    pySplitBr (base ++ sepBr ++ tail) = base :: pySplitBr tail := by
  induction base with
  | nil =>
    simp only [List.nil_append]
    exact pySplitBr_sep_cons tail
  | cons c b ih =>
    obtain ⟨hpre, hrest⟩ := containsSeq_cons_false hb
    cases b with
    | nil =>
      have hcd : ¬ (c = ' ' ∧ ' ' = '[') := by simp
      rw [show (c :: []) ++ sepBr ++ tail = c :: ' ' :: '[' :: tail by simp [sepBr]]
      rw [pySplitBr, if_neg hcd, pySplitBr_sep_cons tail]
    | cons d b' =>
      have hcd : ¬ (c = ' ' ∧ d = '[') := by
        intro ⟨hc, hd⟩
        subst hc; subst hd
        simp [sepBr, List.isPrefixOf] at hpre
      have ihh := ih hrest
      rw [show (d :: b') ++ sepBr ++ tail = d :: (b' ++ sepBr ++ tail) by simp] at ihh
      rw [show (c :: d :: b') ++ sepBr ++ tail = c :: d :: (b' ++ sepBr ++ tail) by simp]
      rw [pySplitBr, if_neg hcd, ihh]

theorem pyReplaceF_nil (old new : List Char) (fuel : Nat) :
    pyReplaceF old new fuel [] = [] := by
  cases fuel <;> rfl

theorem pyReplaceF_append_self (tail : List Char) :
    ∀ (base : List Char) (fuel : Nat),
      containsSeq sepBr base = false →
      (base ++ (sepBr ++ tail)).length ≤ fuel →
      pyReplaceF (sepBr ++ tail) [] fuel (base ++ (sepBr ++ tail)) = base := by
  intro base
  induction base with
  | nil =>
    intro fuel _ hfuel
    simp only [List.nil_append] at hfuel ⊢
    cases fuel with
    | zero =>
      exact absurd hfuel (by simp [sepBr])
    | succ f =>
      rw [show sepBr ++ tail = ' ' :: ('[' :: tail) from rfl]
      rw [pyReplaceF]
      rw [if_pos ⟨by simp, by
        rw [show ' ' :: ('[' :: tail) = sepBr ++ tail from rfl]
        exact isPrefixOf_refl (sepBr ++ tail)⟩]
      rw [show ' ' :: ('[' :: tail) = sepBr ++ tail from rfl]
      rw [show (sepBr ++ tail).length = (sepBr ++ tail).length from rfl]
      rw [List.drop_length, pyReplaceF_nil]
      rfl
  | cons c b ih =>
    intro fuel hb hfuel
    obtain ⟨hpre, hrest⟩ := containsSeq_cons_false hb
    cases fuel with
    | zero =>
      exact absurd hfuel (by simp)
    | succ f =>
      rw [show (c :: b) ++ (sepBr ++ tail) = c :: (b ++ (sepBr ++ tail)) by simp]
      rw [pyReplaceF]
      have hnp : (sepBr ++ tail).isPrefixOf (c :: (b ++ (sepBr ++ tail))) = false := by
        cases b with
        | nil =>
          rw [show sepBr ++ tail = ' ' :: ('[' :: tail) from rfl]
          rw [show c :: ([] ++ (' ' :: ('[' :: tail))) = c :: ' ' :: '[' :: tail by simp]
          simp [List.isPrefixOf]
        | cons d b' =>
          rw [show sepBr ++ tail = ' ' :: ('[' :: tail) from rfl]
          rw [show c :: ((d :: b') ++ (' ' :: ('[' :: tail)))
              = c :: d :: (b' ++ (' ' :: ('[' :: tail))) by simp]
          by_cases hc : ' ' = c
          · by_cases hd : '[' = d
            · exfalso
              subst hc; subst hd
              simp [sepBr, List.isPrefixOf] at hpre
            · simp [List.isPrefixOf, hd]
          · simp [List.isPrefixOf, hc]
      rw [if_neg (by simp [hnp])]
      have hlen : (b ++ (sepBr ++ tail)).length ≤ f := by
        have : (c :: (b ++ (sepBr ++ tail))).length ≤ f + 1 := by
          simpa using hfuel
        simpa using Nat.le_of_succ_le_succ this
      rw [ih f hrest hlen]

theorem pyReplace_append_self (base tail : List Char)
    (hb : containsSeq sepBr base = false) :
    pyReplace (base ++ sepBr ++ tail) (sepBr ++ tail) [] = base := by
  rw [show base ++ sepBr ++ tail = base ++ (sepBr ++ tail) by simp]
  exact pyReplaceF_append_self tail base _ hb le_rfl

theorem pairwise_ordInsert (le : α → α → Bool)
    (htot : ∀ a b, (le a b || le b a) = true)
    (htrans : ∀ a b c, le a b = true → le b c = true → le a c = true)
    (a : α) (l : List α) (h : l.Pairwise (fun x y => le x y = true)) :
    (ordInsert le a l).Pairwise (fun x y => le x y = true) := by
  induction l with
  | nil => simp [ordInsert]
  | cons b t ih =>
    rw [List.pairwise_cons] at h
    obtain ⟨hb, ht⟩ := h
    by_cases hab : le a b = true
    · rw [ordInsert, if_pos hab, List.pairwise_cons]
      refine ⟨?_, List.pairwise_cons.mpr ⟨hb, ht⟩⟩
      intro x hx
      rcases List.mem_cons.mp hx with hx | hx
      · exact hx ▸ hab
      · exact htrans a b x hab (hb x hx)
    · rw [ordInsert, if_neg hab, List.pairwise_cons]
      refine ⟨?_, ih ht⟩
      intro x hx
      rcases (mem_ordInsert le a t x).mp hx with hx | hx
      · rw [hx]
        have := htot a b
        rcases Bool.or_eq_true_iff.mp this with h' | h'
        · exact absurd h' hab
        · exact h'
      · exact hb x hx

theorem pairwise_isort (le : α → α → Bool)
    (htot : ∀ a b, (le a b || le b a) = true)
    (htrans : ∀ a b c, le a b = true → le b c = true → le a c = true)
    (l : List α) : (isort le l).Pairwise (fun x y => le x y = true) := by
  induction l with
  | nil => simp [isort]
  | cons a t ih => exact pairwise_ordInsert le htot htrans a (isort le t) ih

theorem lenDescLe_total (p q : List Char × List Char) :
    (lenDescLe p q || lenDescLe q p) = true := by
  simp [lenDescLe]
  omega

theorem lenDescLe_trans (p q r : List Char × List Char)
    (h₁ : lenDescLe p q = true) (h₂ : lenDescLe q r = true) : lenDescLe p r = true := by
  simp [lenDescLe] at *
  omega

theorem firstMatching_spec (l : List (List Char × List Char)) (s : List Char)
    (p : List Char × List Char)
    (hsort : l.Pairwise (fun x y => lenDescLe x y = true))
    (h : firstMatching l s = some p) :
    p ∈ l ∧ containsSeq p.1 s = true ∧
      ∀ q ∈ l, containsSeq q.1 s = true → q.1.length ≤ p.1.length := by
  induction l with
  | nil => simp [firstMatching] at h
  | cons r rs ih =>
    rw [List.pairwise_cons] at hsort
    obtain ⟨hr, hrs⟩ := hsort
    by_cases hm : containsSeq r.1 s = true
    · rw [firstMatching, if_pos hm, Option.some.injEq] at h
      subst h
      refine ⟨List.mem_cons_self r rs, hm, ?_⟩
      intro q hq _
      rcases List.mem_cons.mp hq with hq | hq
      · exact hq ▸ le_rfl
      · have := hr q hq
        simpa [lenDescLe] using this
    · rw [firstMatching, if_neg hm] at h
      obtain ⟨hmem, hc, hmax⟩ := ih hrs h
      refine ⟨List.mem_cons_of_mem r hmem, hc, ?_⟩
      intro q hq hqc
      rcases List.mem_cons.mp hq with hq | hq
      · exact absurd (hq ▸ hqc) hm
      · exact hmax q hq hqc

theorem firstMatching_none (l : List (List Char × List Char)) (s : List Char)
    (h : ∀ q ∈ l, containsSeq q.1 s = false) : firstMatching l s = none := by
  induction l with
  | nil => rfl
  | cons r rs ih =>
    have hr : containsSeq r.1 s = false := h r (List.mem_cons_self r rs)
    rw [firstMatching, if_neg (by simp [hr])]
    exact ih (fun q hq => h q (List.mem_cons_of_mem r hq))

theorem firstMatching_isSome (l : List (List Char × List Char)) (s : List Char)
    (h : ∃ q ∈ l, containsSeq q.1 s = true) : (firstMatching l s).isSome = true := by
  induction l with
  | nil => simp at h
  | cons r rs ih =>
    by_cases hm : containsSeq r.1 s = true
    · rw [firstMatching, if_pos hm]
      rfl
    · rw [firstMatching, if_neg hm]
      obtain ⟨q, hq, hqc⟩ := h
      rcases List.mem_cons.mp hq with hq | hq
      · exact absurd (hq ▸ hqc) hm
      · exact ih ⟨q, hq, hqc⟩

/-- `get_class_name` on a title of the form `base ++ " [" ++ tail`
(with `" ["` occurring nowhere in `base` or `tail`): the tag is split
off, the base is canonicalized, and the tag is re-appended once. -/
theorem get_class_name_tagged (base tail : List Char)
    (cast : List (List Char × List Char))
    (hb : containsSeq sepBr base = false) (ht : containsSeq sepBr tail = false) :
    get_class_name (base ++ sepBr ++ tail) cast = pickBase base cast ++ sepBr ++ tail := by
  have htag : containsSeq sepBr (base ++ sepBr ++ tail) = true :=
    containsSeq_append_sepBr base tail
  have hsplit : pySplitBr (base ++ sepBr ++ tail) = base :: pySplitBr tail :=
    pySplitBr_append base tail hb
  have hclean : pySplitBr tail = [tail] := pySplitBr_clean tail ht
  have hget : (pySplitBr (base ++ sepBr ++ tail)).getD 1 [] = tail := by
    rw [hsplit, hclean]
    rfl
  have hrepl : pyReplace (base ++ sepBr ++ tail) (sepBr ++ tail) [] = base :=
    pyReplace_append_self base tail hb
  rw [get_class_name]
  simp only [htag, if_true, hget, hrepl, pickBase]
  cases hfm : firstMatching (isort lenDescLe cast) base with
  | none => simp
  | some p =>
    by_cases hp : p.2 = []
    · simp [hp]
    · simp [hp]

/-- `get_class_name` on a title with no `" ["` tag: the whole title is
canonicalized and nothing is appended. -/
theorem get_class_name_untagged (name : List Char)
    (cast : List (List Char × List Char))
    (h : containsSeq sepBr name = false) :
    get_class_name name cast = pickBase name cast := by
  rw [get_class_name]
  simp only [h, if_false, pickBase, Bool.false_eq_true]
  cases hfm : firstMatching (isort lenDescLe cast) name with
  | none => simp
  | some p =>
    by_cases hp : p.2 = []
    · simp [hp]
    · simp [hp]

/-- ASCII part of Python's `\s` / `str.strip()` whitespace set. -/
def pyIsSpace (c : Char) : Bool :=
  c = ' ' || c = '\t' || c = '\n' || c = '\r' || c = '\x0B' || c = '\x0C'

/-- Characters of the regex class `[А-ЯA-Z\-0-9]` in `base_class_name`. -/
def isGroupTokChar (c : Char) : Bool :=
  ('А' ≤ c && c ≤ 'Я') || ('A' ≤ c && c ≤ 'Z') || c = '-' || ('0' ≤ c && c ≤ '9')

/-- Does the suffix `t` match the whole regex `\s+[А-ЯA-Z\-0-9]{3,}$`,
anchored at the end of the string?  Because the whitespace set and the
token class are disjoint, greedy matching reduces to: a nonempty
whitespace block followed by at least three token characters running to
the end. -/
def groupTailMatch (t : List Char) : Bool :=
  decide (1 ≤ (t.takeWhile pyIsSpace).length) &&
  decide (3 ≤ (t.dropWhile pyIsSpace).length) &&
  (t.dropWhile pyIsSpace).all isGroupTokChar

/-- `re.sub(r"\s+[А-ЯA-Z\-0-9]{3,}$", "", s)`: delete the match starting
at the leftmost position from which the pattern matches to the end. -/
def reSubGroupTail (s : List Char) : List Char :=
  match (List.range s.length).find? (fun i => groupTailMatch (s.drop i)) with
  | some i => s.take i
  | none => s

/-- Python's `s.strip()` (ASCII whitespace subset). -/
def pyStrip (s : List Char) : List Char :=
  ((s.dropWhile pyIsSpace).reverse.dropWhile pyIsSpace).reverse

/-- Embedding of `base_class_name`: cut at the first `" ["`, strip a
trailing group-like token, and strip surrounding whitespace. -/
def base_class_name (name : List Char) : List Char :=
  pyStrip (reSubGroupTail ((pySplitBr name).headD []))

/-- Python's membership test `x in l` for a collection of strings. -/
def listHas (l : List (List Char)) (x : List Char) : Bool := decide (x ∈ l)

/-- The loop in `main` that augments the exclusion set: for each alias
pair in insertion order, if the (long) key is in the current set, add
the (short) alias to the set. -/
def effective_excluded (excluded : List (List Char))
    (cast : List (List Char × List Char)) : List (List Char) :=
  cast.foldl (fun acc p => if listHas acc p.1 then acc ++ [p.2] else acc) excluded

/-- The exclusion filter of `main`: keep an entry iff the base form of
its title is not in the effective exclusion set. -/
def filter_excluded (entries : List ScheduleEntry) (excluded : List (List Char))
    (cast : List (List Char × List Char)) : List ScheduleEntry :=
  entries.filter fun e =>
    ! listHas (effective_excluded excluded cast) (base_class_name e.class_name)

/-- The exclusion set as the spec describes it: the configured set
augmented with the alias of every mapping key that is itself in the
configured set (no cascading through previously added aliases). -/
def claim_excluded (excluded : List (List Char))
    (cast : List (List Char × List Char)) : List (List Char) :=
  excluded ++ (cast.filter fun p => listHas excluded p.1).map Prod.snd

theorem listHas_append (l₁ l₂ : List (List Char)) (x : List Char) :
    listHas (l₁ ++ l₂) x = (listHas l₁ x || listHas l₂ x) := by
  simp [listHas, List.mem_append]

theorem effective_excluded_fold (cast : List (List Char × List Char)) :
    ∀ (excluded extra : List (List Char)),
      (∀ p ∈ cast, listHas extra p.1 = false) →
      (∀ p ∈ cast, ∀ q ∈ cast, ¬ p.1 = q.2) →
      List.foldl (fun acc p => if listHas acc p.1 then acc ++ [p.2] else acc)
          (excluded ++ extra) cast
        = excluded ++ extra ++ (cast.filter fun p => listHas excluded p.1).map Prod.snd := by
  induction cast with
  | nil => simp
  | cons p ps ih =>
    intro excluded extra hextra hkv
    have hp : listHas (excluded ++ extra) p.1 = listHas excluded p.1 := by
      rw [listHas_append, hextra p (List.mem_cons_self p ps)]
      simp
    rw [List.foldl_cons]
    by_cases hin : listHas excluded p.1 = true
    · rw [if_pos (by rw [hp]; exact hin)]
      have step : (excluded ++ extra) ++ [p.2] = excluded ++ (extra ++ [p.2]) := by
        simp
      rw [step, ih excluded (extra ++ [p.2]) ?hex ?hkv]
      · rw [List.filter_cons, if_pos (by simp [hin])]
        simp
      case hex =>
        intro q hq
        rw [listHas_append]
        have h1 := hextra q (List.mem_cons_of_mem p hq)
        have h2 : ¬ q.1 = p.2 :=
          hkv q (List.mem_cons_of_mem p hq) p (List.mem_cons_self p ps)
        simp [listHas] at h1 ⊢
        exact ⟨h1, h2⟩
      case hkv =>
        intro a ha b hb
        exact hkv a (List.mem_cons_of_mem p ha) b (List.mem_cons_of_mem p hb)
    · rw [if_neg (by rw [hp]; exact hin)]
      rw [ih excluded extra
        (fun q hq => hextra q (List.mem_cons_of_mem p hq))
        (fun a ha b hb => hkv a (List.mem_cons_of_mem p ha) b (List.mem_cons_of_mem p hb))]
      rw [List.filter_cons, if_neg (by simpa using hin)]

/-- Without key/alias collisions, the effective exclusion set built by
`main` is exactly the one the spec describes. -/
theorem effective_excluded_eq_claim (excluded : List (List Char))
    (cast : List (List Char × List Char))
    (hkv : ∀ p ∈ cast, ∀ q ∈ cast, ¬ p.1 = q.2) :
    effective_excluded excluded cast = claim_excluded excluded cast := by
  have h := effective_excluded_fold cast excluded []
    (fun p _ => by simp [listHas]) hkv
  simpa [effective_excluded, claim_excluded] using h

/-- Day count from 1970-01-01 in the proleptic Gregorian calendar
(Hinnant's `days_from_civil`), modelling Python `datetime` dates as
integers; all divisions at the call sites act on nonnegative values. -/
def daysFromCivil (y m d : Int) : Int :=
  let yy := if m ≤ 2 then y - 1 else y
  let era := (if 0 ≤ yy then yy else yy - 399) / 400
  let yoe := yy - era * 400
  let mp := if 2 < m then m - 3 else m + 9
  let doy := (153 * mp + 2) / 5 + d - 1
  let doe := yoe * 365 + yoe / 4 - yoe / 100 + doy
  era * 146097 + doe - 719468

/-- `date.weekday()`: Monday-origin weekday of a day count
(1970-01-01 was a Thursday, weekday 3). -/
def weekdayOfDays (d : Int) : Int := (d + 3) % 7

/-- Closed form of the loop `while d.weekday() != 0: d += timedelta(days=1)`:
the first Monday on or after `d`. -/
def untilMonday (d : Int) : Int := d + (7 - weekdayOfDays d) % 7

/-- The second Monday of February of year `y`: the first Monday on or
after February 1, plus seven days (the spec's spring-term start). -/
def secondMondayOfFebruary (y : Int) : Int := untilMonday (daysFromCivil y 2 1) + 7

/-- September 1 of year `y`, advanced to the following Monday exactly
when it falls on Saturday or Sunday (the spec's autumn-term start). -/
def autumnTermStart (y : Int) : Int :=
  let d := daysFromCivil y 9 1
  if weekdayOfDays d = 5 ∨ weekdayOfDays d = 6 then d + (7 - weekdayOfDays d) else d

/-- `semester.find("/")`: code-point index of the first slash, `-1` when
there is none. -/
def pyFindSlash : List Char → Int
  | [] => -1
  | c :: rest =>
    if c = '/' then 0
    else if pyFindSlash rest < 0 then -1 else pyFindSlash rest + 1

/-- Clamp one Python slice index (negative indices count from the end). -/
def pySliceIdx (len : Nat) (i : Int) : Nat :=
  if i < 0 then ((len : Int) + i).toNat else min i.toNat len

/-- Python's `s[a:b]` with full clamping semantics. -/
def pySlice (s : List Char) (a b : Int) : List Char :=
  (s.take (pySliceIdx s.length b)).drop (pySliceIdx s.length a)

/-- Numeric value of a list of decimal digit characters. -/
def digitsVal (cs : List Char) : Int :=
  cs.foldl (fun acc c => acc * 10 + ((c.toNat : Int) - 48)) 0

/-- Python's `int(...)` on a sliced string: the value when every
character is a decimal digit, `none` modelling the `ValueError`
otherwise (signs and surrounding whitespace are not modelled; the call
sites slice four characters out of the label). -/
def parseDigits (cs : List Char) : Option Int :=
  if cs ≠ [] ∧ cs.all Char.isDigit then some (digitsVal cs) else none

/-- Embedding of `calculate_semester_start`, applied to the semester
label string fetched from the feed (the fetch itself is the external
collaborator).  Returns the day count of the inferred start date. -/
def calculate_semester_start (semester : List Char) : Option Int :=
  let year_pos := pyFindSlash semester
  if ("Осенний".data).isPrefixOf semester then
    let yp := year_pos - 4
    (parseDigits (pySlice semester yp (yp + 4))).map fun y =>
      let d := daysFromCivil y 9 1
      if 5 ≤ weekdayOfDays d then d + (7 - weekdayOfDays d) else d
  else
    let yp := year_pos + 1
    (parseDigits (pySlice semester yp (yp + 4))).map fun y =>
      untilMonday (daysFromCivil y 2 1) + 7

theorem pyFindSlash_append (pre post : List Char) (h : '/' ∉ pre) :
    pyFindSlash (pre ++ '/' :: post) = (pre.length : Int) := by
  induction pre with
  | nil => simp [pyFindSlash]
  | cons c cs ih =>
    have hc : ¬ c = '/' := fun hc => h (hc ▸ List.mem_cons_self c cs)
    have hcs : '/' ∉ cs := fun hm => h (List.mem_cons_of_mem c hm)
    rw [List.cons_append, pyFindSlash, if_neg hc, ih hcs]
    rw [if_neg (by omega)]
    push_cast [List.length_cons]
    ring

theorem weekdayOfDays_nonneg (d : Int) : 0 ≤ weekdayOfDays d :=
  Int.emod_nonneg _ (by norm_num)

theorem weekdayOfDays_lt (d : Int) : weekdayOfDays d < 7 :=
  Int.emod_lt_of_pos _ (by norm_num)

theorem untilMonday_weekday (d : Int) : weekdayOfDays (untilMonday d) = 0 := by
  have h0 := weekdayOfDays_nonneg d
  have h7 := weekdayOfDays_lt d
  rw [untilMonday]
  unfold weekdayOfDays at *
  by_cases hw : (d + 3) % 7 = 0
  · rw [hw]
    omega
  · have : (7 - (d + 3) % 7) % 7 = 7 - (d + 3) % 7 := by omega
    rw [this]
    omega

theorem untilMonday_bounds (d : Int) : d ≤ untilMonday d ∧ untilMonday d ≤ d + 6 := by
  have h0 := weekdayOfDays_nonneg d
  have h7 := weekdayOfDays_lt d
  rw [untilMonday]
  unfold weekdayOfDays at *
  constructor
  · omega
  · omega

theorem pySlice_of_append (pre mid post : List Char) :
    pySlice (pre ++ mid ++ post) (pre.length : Int)
        ((pre.length : Int) + (mid.length : Int)) = mid := by
  rw [pySlice]
  have hlen : (pre ++ mid ++ post).length = pre.length + mid.length + post.length := by
    simp
    omega
  have ha : pySliceIdx (pre ++ mid ++ post).length (pre.length : Int) = pre.length := by
    rw [pySliceIdx, if_neg (by omega), hlen, Int.toNat_natCast]
    omega
  have hb : pySliceIdx (pre ++ mid ++ post).length
      ((pre.length : Int) + (mid.length : Int)) = pre.length + mid.length := by
    rw [pySliceIdx, if_neg (by omega)]
    rw [hlen]
    rw [show (pre.length : Int) + (mid.length : Int) = ((pre.length + mid.length : Nat) : Int) by push_cast; ring]
    rw [Int.toNat_natCast]
    omega
  rw [ha, hb]
  have htake : (pre ++ mid ++ post).take (pre.length + mid.length) = pre ++ mid := by
    rw [show pre ++ mid ++ post = (pre ++ mid) ++ post by simp]
    rw [show pre.length + mid.length = (pre ++ mid).length by simp]
    exact List.take_left (pre ++ mid) post
  rw [htake]
  exact List.drop_left pre mid

/-- The configuration fields consumed by `create_ics_file`.  `class_pre`
and `class_suf` model the config keys `class_prefix` and `class_suffix`
(whose Python names are avoided here only for lexical reasons). -/
structure IcsConfig where
  academic_hour_duration : Int
  short_recreation_duration : Int
  long_recreation_duration : Int
  repeat_number : Int
  teacher_in_description : Bool
  alarm_is_on : Bool
  alarm_minutes_before : Int
  class_pre : List Char
  class_suf : List Char
deriving DecidableEq, Repr

/-- `pair_duration = academic_hour_duration * 2`. -/
def pair_duration (cfg : IcsConfig) : Int := cfg.academic_hour_duration * 2

/-- `class_duration` of one (possibly merged) entry, in minutes. -/
def class_duration (cfg : IcsConfig) (e : ScheduleEntry) : Int :=
  e.duration * pair_duration cfg + (e.duration - 1) * cfg.short_recreation_duration

/-- The `first_class_date` computation of `create_ics_file`: day count of
the first occurrence, from the semester start day count.  The start
weekday is recomputed from the start day exactly as
`start_date.weekday()` does. -/
def first_class_date (start_day : Int) (e : ScheduleEntry) : Int :=
  let first_day_of_semester := weekdayOfDays start_day
  if e.week_day < first_day_of_semester ∧ e.week_code = 0 then
    start_day + ((e.week_code + 4) * 7 + (e.week_day - first_day_of_semester))
  else
    start_day + (e.week_code * 7 + (e.week_day - first_day_of_semester))

/-- The event start time computed by `create_ics_file`, in minutes from
the epoch: 09:00 on the first occurrence date, plus
`slot_number * (pair_duration + 10)` (a hard-coded ten-minute break),
plus the long-break correction for `slot_number >= 2`. -/
def event_start (cfg : IcsConfig) (start_day : Int) (e : ScheduleEntry) : Int :=
  let st := first_class_date start_day e * 1440 + 9 * 60
  let st := st + e.slot_number * (pair_duration cfg + 10)
  if 2 ≤ e.slot_number then
    st + (cfg.long_recreation_duration - cfg.short_recreation_duration)
  else st

/-- `end_time = start_time + timedelta(minutes=class_duration)`. -/
def event_end (cfg : IcsConfig) (start_day : Int) (e : ScheduleEntry) : Int :=
  event_start cfg start_day e + class_duration cfg e

/-- One VALARM component as emitted by `create_ics_file` (`trigger` in
minutes relative to the event start). -/
structure VAlarm where
  action : List Char
  description : List Char
  trigger : Int
deriving DecidableEq, Repr

/-- One VEVENT as emitted by `create_ics_file`.  The random `uid` and
the calendar-level `prodid`/`version` headers are not modelled. -/
structure VEvent where
  summary : List Char
  dtstart : Int
  dtend : Int
  location : List Char
  description : Option (List Char)
  rrule_freq : List Char
  rrule_interval : Int
  rrule_count : Int
  alarms : List VAlarm
deriving DecidableEq, Repr

/-- The alarm built for every event: action `DISPLAY` when `alarm_is_on`
else the literal `NONE`, always with the reminder text and the
`-alarm_minutes_before` trigger. -/
def build_alarm (cfg : IcsConfig) (e : ScheduleEntry) : VAlarm :=
  { action := if cfg.alarm_is_on then "DISPLAY".data else "NONE".data,
    description := "Reminder: ".data ++ e.class_name ++ " in ".data ++ e.room_number,
    trigger := -cfg.alarm_minutes_before }

/-- The event built by the per-entry loop body of `create_ics_file`. -/
def build_event (cfg : IcsConfig) (start_day : Int) (e : ScheduleEntry) : VEvent :=
  { summary := cfg.class_pre ++ e.class_name ++ cfg.class_suf,
    dtstart := event_start cfg start_day e,
    dtend := event_end cfg start_day e,
    location := e.room_number,
    description := if cfg.teacher_in_description then some e.teacher else none,
    rrule_freq := "weekly".data,
    rrule_interval := 4,
    rrule_count := cfg.repeat_number,
    alarms := [build_alarm cfg e] }

/-- Embedding of `create_ics_file`: one event per entry of the merged
schedule (the final file write is the external collaborator). -/
def create_ics_file (schedule : List ScheduleEntry) (cfg : IcsConfig)
    (start_day : Int) : List VEvent :=
  schedule.map (build_event cfg start_day)

/-- Modelled from the spec (§4.5 steps 4-5): the claimed start time,
09:00 plus `periodIndex * (2*academicPeriodLength + shortBreak)` minutes
— the step built from the CONFIGURED short break — plus the
`(longBreak - shortBreak)` extra when `periodIndex >= 2`.  Kept separate
from `event_start` so the two can be compared. -/
def spec_event_start (cfg : IcsConfig) (start_day : Int) (e : ScheduleEntry) : Int :=
  first_class_date start_day e * 1440 + 9 * 60
    + e.slot_number * (2 * cfg.academic_hour_duration + cfg.short_recreation_duration)
    + (if 2 ≤ e.slot_number then
        cfg.long_recreation_duration - cfg.short_recreation_duration
      else 0)

/-- One raw feed record, with the fields `create_list_of_classes_for_educator`
reads: `Class.Name`, `Class.TeacherFull`, `Room.Name`, `DayNumber`,
`Day`, `Time.Code`. -/
structure RawClass where
  Name : List Char
  TeacherFull : List Char
  RoomName : List Char
  DayNumber : Int
  Day : Int
  TimeCode : Int
deriving DecidableEq, Repr

/-- The `ScheduleEntry` built in educator mode: canonicalized name plus
`" " + group`, and the 1-based `Day` / `Time.Code` fields shifted to
0-based. -/
def entry_for_educator (cast : List (List Char × List Char)) (group : List Char)
    (r : RawClass) : ScheduleEntry :=
  mkScheduleEntry (get_class_name r.Name cast ++ ' ' :: group) r.DayNumber
    r.RoomName (r.Day - 1) (r.TimeCode - 1) r.TeacherFull

/-- Embedding of `create_list_of_classes_for_educator`: scan the groups
in order (`fetch` stands for the network collaborator returning each
group's raw schedule), keep records taught by `educator`, and stop
fatally (`sys.exit(2)`, modelled as `Except.error` carrying the data of
the diagnostic message) when nothing was collected. -/
def create_list_of_classes_for_educator (groups : List (List Char))
    (educator : List Char) (cast : List (List Char × List Char))
    (fetch : List Char → List RawClass) :
    Except (List Char × List (List Char)) (List ScheduleEntry) :=
  let class_list := groups.foldl (fun acc g =>
    acc ++ ((fetch g).filter fun r => r.TeacherFull == educator).map
      (entry_for_educator cast g)) []
  if class_list.isEmpty then Except.error (educator, groups)
  else Except.ok class_list

/-- The educator-mode tail of `main`: collect the classes, filter the
exclusion set, merge, and materialize the calendar; a fatal stop in the
collection step propagates and no calendar is produced. -/
def run_educator_pipeline (groups : List (List Char)) (educator : List Char)
    (cast : List (List Char × List Char)) (fetch : List Char → List RawClass)
    (excluded : List (List Char)) (cfg : IcsConfig) (start_day : Int) :
    Except (List Char × List (List Char)) (List VEvent) :=
  (create_list_of_classes_for_educator groups educator cast fetch).map
    fun unmerged =>
      create_ics_file (merge_list_of_classes (filter_excluded unmerged excluded cast))
        cfg start_day

theorem educator_foldl_nil (fetch : List Char → List RawClass)
    (educator : List Char) (cast : List (List Char × List Char)) :
    ∀ (groups : List (List Char)) (acc : List ScheduleEntry),
      (∀ g ∈ groups, ∀ r ∈ fetch g, ¬ r.TeacherFull = educator) →
      groups.foldl (fun acc g =>
        acc ++ ((fetch g).filter fun r => r.TeacherFull == educator).map
          (entry_for_educator cast g)) acc = acc := by
  intro groups
  induction groups with
  | nil => intro acc _; rfl
  | cons g gs ih =>
    intro acc h
    have hfil : (fetch g).filter (fun r => r.TeacherFull == educator) = [] := by
      rw [List.filter_eq_nil_iff]
      intro r hr
      simpa using h g (List.mem_cons_self g gs) r hr
    rw [List.foldl_cons, hfil]
    simp only [List.map_nil, List.append_nil]
    exact ih acc (fun g' hg' => h g' (List.mem_cons_of_mem g hg'))

/-- C1: evaluating `merge_list_of_classes` at a run of three entries
that are pairwise merge-adjacent along periodIndex (slots 0,1,2,
identical otherwise).  The claim (and the comment over the source
function) promises one output entry with durationPeriods 3; the code
instead returns TWO entries with durations 2 and 1, because after the
first absorption the survivor keeps slot 0 and the adjacency test
`abs(slot - slot') == 1` fails against the entry at slot 2. -/
theorem C1_run_of_three_not_fully_merged :
    merge_list_of_classes
        [mkScheduleEntry "X".data 0 "R".data 0 0 "T".data,
         mkScheduleEntry "X".data 0 "R".data 0 1 "T".data,
         mkScheduleEntry "X".data 0 "R".data 0 2 "T".data]
      = [{ mkScheduleEntry "X".data 0 "R".data 0 0 "T".data with duration := 2 },
         mkScheduleEntry "X".data 0 "R".data 0 2 "T".data] ∧
    (merge_list_of_classes
        [mkScheduleEntry "X".data 0 "R".data 0 0 "T".data,
         mkScheduleEntry "X".data 0 "R".data 0 1 "T".data,
         mkScheduleEntry "X".data 0 "R".data 0 2 "T".data]).length ≠ 1 := by
  decide

/-- C3 counterexample: two input entries that agree on the whole
identity key (weekCycleCode, weekday, periodIndex, room, title) and
differ only in teacher both survive `merge_list_of_classes`, so the
output DOES contain two entries with equal identity keys. -/
theorem C3_counterexample :
    merge_list_of_classes
        [mkScheduleEntry "X".data 0 "R".data 0 0 "T1".data,
         mkScheduleEntry "X".data 0 "R".data 0 0 "T2".data]
      = [mkScheduleEntry "X".data 0 "R".data 0 0 "T1".data,
         mkScheduleEntry "X".data 0 "R".data 0 0 "T2".data] ∧
    ((mkScheduleEntry "X".data 0 "R".data 0 0 "T1".data).week_code,
     (mkScheduleEntry "X".data 0 "R".data 0 0 "T1".data).week_day,
     (mkScheduleEntry "X".data 0 "R".data 0 0 "T1".data).slot_number,
     (mkScheduleEntry "X".data 0 "R".data 0 0 "T1".data).room_number,
     (mkScheduleEntry "X".data 0 "R".data 0 0 "T1".data).class_name)
      = ((mkScheduleEntry "X".data 0 "R".data 0 0 "T2".data).week_code,
         (mkScheduleEntry "X".data 0 "R".data 0 0 "T2".data).week_day,
         (mkScheduleEntry "X".data 0 "R".data 0 0 "T2".data).slot_number,
         (mkScheduleEntry "X".data 0 "R".data 0 0 "T2".data).room_number,
         (mkScheduleEntry "X".data 0 "R".data 0 0 "T2".data).class_name) ∧
    mkScheduleEntry "X".data 0 "R".data 0 0 "T1".data
      ≠ mkScheduleEntry "X".data 0 "R".data 0 0 "T2".data := by
  decide

/-- C3 (amended): after `merge_list_of_classes`, no two CONSECUTIVE
entries of the returned (sorted) list satisfy the merge-adjacency
predicate.  (Identity-key duplicates differing in teacher, and
merge-adjacent pairs separated in the sorted order, may survive.) -/
theorem C3_no_consecutive_adjacent (class_list : List ScheduleEntry) :
    List.Chain' (fun x y => is_aligned_class x y = false)
      (merge_list_of_classes class_list) := by
  cases h : isort entryLe class_list with
  | nil =>
    simp only [merge_list_of_classes, h]
    exact List.chain'_nil
  | cons a rest =>
    simp only [merge_list_of_classes, h]
    exact mergeScan_chain rest a

/-- C7: the merger only increments durations and deletes absorbed
neighbours: (1) every output entry of `merge_list_of_classes` agrees
with some input entry on title, weekCycleCode, weekday, periodIndex,
room and teacher; (2) when an entry absorbs its merge-adjacent right
neighbour, the survivor is the one with the smaller periodIndex, its
duration incremented. -/
theorem C7_merge_frame :
    (∀ (l : List ScheduleEntry) (e : ScheduleEntry),
        e ∈ merge_list_of_classes l → ∃ e₀, e₀ ∈ l ∧ sameFields e₀ e) ∧
    (∀ a b : ScheduleEntry, is_aligned_class a b = true →
        a.slot_number < b.slot_number →
        merge_list_of_classes [a, b] = [bumpDuration a]) := by
  constructor
  · intro l e he
    cases h : isort entryLe l with
    | nil =>
      rw [merge_list_of_classes, h] at he
      simp at he
    | cons a rest =>
      rw [merge_list_of_classes, h] at he
      obtain ⟨e₀, h₀, hsf⟩ := mergeScan_fields rest a e he
      refine ⟨e₀, ?_, hsf⟩
      have : e₀ ∈ isort entryLe l := by
        rw [h]
        rcases h₀ with h₀ | h₀
        · exact h₀ ▸ List.mem_cons_self a rest
        · exact List.mem_cons_of_mem a h₀
      exact (mem_isort entryLe l e₀).mp this
  · intro a b halB hlt
    have hal := halB
    simp only [is_aligned_class, Bool.and_eq_true, beq_iff_eq] at hal
    obtain ⟨⟨⟨⟨⟨hcn, hwc⟩, hwd⟩, hrm⟩, htc⟩, _⟩ := hal
    have hk : keyLt b a = false := by
      rw [keyLt, if_neg (not_not_intro hwc.symm), if_neg (not_not_intro hwd.symm),
        if_pos (by intro hh; omega)]
      simp
      omega
    have hsort : isort entryLe [a, b] = [a, b] := by
      simp [isort, ordInsert, entryLe, hk]
    rw [merge_list_of_classes, hsort]
    show mergeScan a [b] = [bumpDuration a]
    rw [show mergeScan a [b]
        = if is_aligned_class a b then mergeScan (bumpDuration a) []
          else a :: mergeScan b [] from rfl]
    rw [if_pos halB]
    rfl

/-- Witness for C7 at concrete inputs: a singleton list maps to itself
up to fields, and a concrete aligned pair merges to the smaller-slot
survivor. -/
theorem C7_merge_frame_witness :
    (∃ e₀, e₀ ∈ [mkScheduleEntry "X".data 0 "R".data 0 0 "T".data] ∧
        sameFields e₀ (mkScheduleEntry "X".data 0 "R".data 0 0 "T".data)) ∧
    merge_list_of_classes
        [mkScheduleEntry "X".data 0 "R".data 0 0 "T".data,
         mkScheduleEntry "X".data 0 "R".data 0 1 "T".data]
      = [bumpDuration (mkScheduleEntry "X".data 0 "R".data 0 0 "T".data)] :=
  ⟨C7_merge_frame.1 [mkScheduleEntry "X".data 0 "R".data 0 0 "T".data]
      (mkScheduleEntry "X".data 0 "R".data 0 0 "T".data) (by decide),
   C7_merge_frame.2 (mkScheduleEntry "X".data 0 "R".data 0 0 "T".data)
      (mkScheduleEntry "X".data 0 "R".data 0 1 "T".data) (by decide) (by decide)⟩

/-- C5: the first-occurrence date equals the semester start plus
`weekOffset + (weekday - startWeekday)` days, where `weekOffset` is
`(weekCycleCode + 4) * 7` exactly when `weekCycleCode = 0` and the
entry's weekday precedes the start weekday, and `weekCycleCode * 7`
otherwise; in the rollover case the entry lands exactly 28 days after
its no-rollover placement. -/
theorem C5_first_class_date (start_day : Int) (e : ScheduleEntry) :
    (first_class_date start_day e
        = start_day
          + (if e.week_code = 0 ∧ e.week_day < weekdayOfDays start_day
             then (e.week_code + 4) * 7 else e.week_code * 7)
          + (e.week_day - weekdayOfDays start_day)) ∧
    (e.week_code = 0 → e.week_day < weekdayOfDays start_day →
      first_class_date start_day e
        = (start_day + (e.week_code * 7 + (e.week_day - weekdayOfDays start_day))) + 28) := by
  constructor
  · simp only [first_class_date]
    by_cases h : e.week_day < weekdayOfDays start_day ∧ e.week_code = 0
    · rw [if_pos h, if_pos ⟨h.2, h.1⟩]
      ring
    · rw [if_neg h, if_neg (fun hc => h ⟨hc.2, hc.1⟩)]
      ring
  · intro h0 hlt
    simp only [first_class_date]
    rw [if_pos ⟨hlt, h0⟩, h0]
    ring

/-- Witness for C5: a rollover entry (weekCycleCode 0, weekday 0) with
the semester starting on day 0 (a Thursday, weekday 3) lands 28 days
after its no-rollover placement. -/
theorem C5_first_class_date_witness :
    first_class_date 0 (mkScheduleEntry "X".data 0 "R".data 0 0 "T".data)
      = (0 + ((mkScheduleEntry "X".data 0 "R".data 0 0 "T".data).week_code * 7
          + ((mkScheduleEntry "X".data 0 "R".data 0 0 "T".data).week_day
             - weekdayOfDays 0))) + 28 :=
  (C5_first_class_date 0 (mkScheduleEntry "X".data 0 "R".data 0 0 "T".data)).2
    (by decide) (by decide)

/-- C2 counterexample: with academicPeriodLength 40 and a configured
shortBreak of 20 minutes, the spec's start-time formula (step
`2*academicPeriodLength + shortBreak`) gives 640 minutes past midnight
for periodIndex 1, while the code (hard-coded `pair_duration + 10`)
gives 630: the per-period step does NOT use the configured short break. -/
theorem C2_counterexample :
    spec_event_start
        { academic_hour_duration := 40, short_recreation_duration := 20,
          long_recreation_duration := 40, repeat_number := 5,
          teacher_in_description := true, alarm_is_on := true,
          alarm_minutes_before := 15, class_pre := [], class_suf := [] }
        0 (mkScheduleEntry "X".data 0 "R".data 3 1 "T".data)
      ≠ event_start
        { academic_hour_duration := 40, short_recreation_duration := 20,
          long_recreation_duration := 40, repeat_number := 5,
          teacher_in_description := true, alarm_is_on := true,
          alarm_minutes_before := 15, class_pre := [], class_suf := [] }
        0 (mkScheduleEntry "X".data 0 "R".data 3 1 "T".data) := by
  decide

/-- C2 (amended): for every configuration and entry the computed start
time is 09:00 on the first-occurrence date plus
`periodIndex * (2*academicPeriodLength + 10)` minutes — the per-period
step uses a HARD-CODED ten-minute break, not the configured short break
— plus `(longBreak - shortBreak)` minutes exactly when periodIndex ≥ 2. -/
theorem C2_event_start_formula (cfg : IcsConfig) (start_day : Int) (e : ScheduleEntry) :
    event_start cfg start_day e
      = first_class_date start_day e * 1440 + 9 * 60
        + e.slot_number * (2 * cfg.academic_hour_duration + 10)
        + (if 2 ≤ e.slot_number then
            cfg.long_recreation_duration - cfg.short_recreation_duration
          else 0) := by
  simp only [event_start, pair_duration]
  by_cases h : 2 ≤ e.slot_number
  · rw [if_pos h, if_pos h]
    ring
  · rw [if_neg h, if_neg h]
    ring

/-- C10: every event emitted by `create_ics_file` carries exactly one
alarm component; its action is `DISPLAY` when alarms are on and the
literal `NONE` when they are off, and in both cases it carries the
reminder text and the `-alarm_minutes_before` trigger. -/
theorem C10_alarm_always_attached (cfg : IcsConfig) (start_day : Int)
    (schedule : List ScheduleEntry) (ev : VEvent)
    (h : ev ∈ create_ics_file schedule cfg start_day) :
    ∃ e, e ∈ schedule ∧
      ev.alarms
        = [{ action := if cfg.alarm_is_on then "DISPLAY".data else "NONE".data,
             description := "Reminder: ".data ++ e.class_name
               ++ " in ".data ++ e.room_number,
             trigger := -cfg.alarm_minutes_before }] := by
  rw [create_ics_file] at h
  obtain ⟨e, he, heq⟩ := List.mem_map.mp h
  exact ⟨e, he, by rw [← heq]; rfl⟩

/-- Witness for C10 at a concrete configuration (alarms off) and a
concrete one-entry schedule. -/
theorem C10_alarm_always_attached_witness :
    ∃ e, e ∈ [mkScheduleEntry "X".data 0 "R".data 0 0 "T".data] ∧
      (build_event
          { academic_hour_duration := 40, short_recreation_duration := 10,
            long_recreation_duration := 40, repeat_number := 5,
            teacher_in_description := true, alarm_is_on := false,
            alarm_minutes_before := 15, class_pre := [], class_suf := [] }
          0 (mkScheduleEntry "X".data 0 "R".data 0 0 "T".data)).alarms
        = [{ action := if ({ academic_hour_duration := 40,
                             short_recreation_duration := 10,
                             long_recreation_duration := 40, repeat_number := 5,
                             teacher_in_description := true, alarm_is_on := false,
                             alarm_minutes_before := 15, class_pre := [],
                             class_suf := [] : IcsConfig }).alarm_is_on
                       then "DISPLAY".data else "NONE".data,
             description := "Reminder: ".data ++ e.class_name
               ++ " in ".data ++ e.room_number,
             trigger := -({ academic_hour_duration := 40,
                            short_recreation_duration := 10,
                            long_recreation_duration := 40, repeat_number := 5,
                            teacher_in_description := true, alarm_is_on := false,
                            alarm_minutes_before := 15, class_pre := [],
                            class_suf := [] : IcsConfig }).alarm_minutes_before }] :=
  C10_alarm_always_attached
    { academic_hour_duration := 40, short_recreation_duration := 10,
      long_recreation_duration := 40, repeat_number := 5,
      teacher_in_description := true, alarm_is_on := false,
      alarm_minutes_before := 15, class_pre := [], class_suf := [] }
    0 [mkScheduleEntry "X".data 0 "R".data 0 0 "T".data]
    (build_event
      { academic_hour_duration := 40, short_recreation_duration := 10,
        long_recreation_duration := 40, repeat_number := 5,
        teacher_in_description := true, alarm_is_on := false,
        alarm_minutes_before := 15, class_pre := [], class_suf := [] }
      0 (mkScheduleEntry "X".data 0 "R".data 0 0 "T".data))
    (by decide)

/-- C8: in aggregate (educator) mode, when no record of any configured
group is taught by the target educator, the collection step stops
fatally with a diagnostic carrying the educator and the searched groups
(`sys.exit(2)`), the pipeline produces no calendar, and a successful
result never carries an empty schedule. -/
theorem C8_educator_no_match_fatal (groups : List (List Char)) (educator : List Char)
    (cast : List (List Char × List Char)) (fetch : List Char → List RawClass)
    (excluded : List (List Char)) (cfg : IcsConfig) (start_day : Int) :
    ((∀ g ∈ groups, ∀ r ∈ fetch g, ¬ r.TeacherFull = educator) →
      create_list_of_classes_for_educator groups educator cast fetch
          = Except.error (educator, groups) ∧
      run_educator_pipeline groups educator cast fetch excluded cfg start_day
          = Except.error (educator, groups)) ∧
    (∀ cl, create_list_of_classes_for_educator groups educator cast fetch
          = Except.ok cl → cl ≠ []) := by
  constructor
  · intro h
    have hnil := educator_foldl_nil fetch educator cast groups [] h
    have h1 : create_list_of_classes_for_educator groups educator cast fetch
        = Except.error (educator, groups) := by
      simp only [create_list_of_classes_for_educator]
      rw [hnil]
      rfl
    refine ⟨h1, ?_⟩
    rw [run_educator_pipeline, h1]
    rfl
  · intro cl hcl
    simp only [create_list_of_classes_for_educator] at hcl
    split at hcl
    · exact absurd hcl (by simp)
    · rename_i hemp
      rw [Except.ok.injEq] at hcl
      subst hcl
      intro hnil
      rw [hnil] at hemp
      simp at hemp

/-- Witness for C8: one group whose fetched schedule is empty, so no
record matches; the collection and the pipeline both stop with the
diagnostic error. -/
theorem C8_educator_no_match_fatal_witness :
    create_list_of_classes_for_educator ["G".data] "E".data [] (fun _ => [])
        = Except.error ("E".data, ["G".data]) ∧
    run_educator_pipeline ["G".data] "E".data [] (fun _ => []) []
        { academic_hour_duration := 40, short_recreation_duration := 10,
          long_recreation_duration := 40, repeat_number := 5,
          teacher_in_description := true, alarm_is_on := true,
          alarm_minutes_before := 15, class_pre := [], class_suf := [] } 0
        = Except.error ("E".data, ["G".data]) :=
  (C8_educator_no_match_fatal ["G".data] "E".data [] (fun _ => []) []
      { academic_hour_duration := 40, short_recreation_duration := 10,
        long_recreation_duration := 40, repeat_number := 5,
        teacher_in_description := true, alarm_is_on := true,
        alarm_minutes_before := 15, class_pre := [], class_suf := [] } 0).1
    (by intro g hg r hr; simp at hr)

/-- C6 counterexample: the alias mapping `{"A": ""}` and raw title
`"A"`: the key `"A"` is the (unique, longest) substring match, so the
claim requires its alias `""` as base name; the code's falsy-string
test `if not res_name` discards the empty alias and returns the bare
title `"A"` instead. -/
theorem C6_counterexample :
    containsSeq ['A'] ['A'] = true ∧
    get_class_name ['A'] [(['A'], [])] = ['A'] ∧
    (['A'] : List Char) ≠ [] := by
  decide

/-- C6 (amended): name canonicalization splits off the `" ["` tag (when
present and occurring once), selects the longest alias key occurring in
the bare title, uses its alias — except that an EMPTY alias falls back
to the bare title — uses the bare title verbatim when no key matches,
and re-appends the tag exactly once. -/
theorem C6_canonicalization (cast : List (List Char × List Char))
    (base tail : List Char) (tagged : Bool)
    (hb : containsSeq sepBr base = false) (ht : containsSeq sepBr tail = false) :
    (get_class_name (base ++ (if tagged then sepBr ++ tail else [])) cast
        = pickBase base cast ++ (if tagged then sepBr ++ tail else [])) ∧
    ((∀ p ∈ cast, containsSeq p.1 base = false) → pickBase base cast = base) ∧
    (∀ p, firstMatching (isort lenDescLe cast) base = some p →
        p ∈ cast ∧ containsSeq p.1 base = true ∧
        (∀ q ∈ cast, containsSeq q.1 base = true → q.1.length ≤ p.1.length) ∧
        pickBase base cast = (if p.2 = [] then base else p.2)) ∧
    ((∃ p ∈ cast, containsSeq p.1 base = true) →
        ∃ p, firstMatching (isort lenDescLe cast) base = some p) := by
  refine ⟨?_, ?_, ?_, ?_⟩
  · cases tagged with
    | true =>
      simp only [if_true]
      have := get_class_name_tagged base tail cast hb ht
      simpa [List.append_assoc] using this
    | false =>
      simp only [Bool.false_eq_true, if_false, List.append_nil]
      exact get_class_name_untagged base cast hb
  · intro h
    rw [pickBase, firstMatching_none]
    intro q hq
    exact h q ((mem_isort lenDescLe cast q).mp hq)
  · intro p hp
    have hsort := pairwise_isort lenDescLe lenDescLe_total lenDescLe_trans cast
    obtain ⟨hmem, hc, hmax⟩ := firstMatching_spec _ base p hsort hp
    refine ⟨(mem_isort lenDescLe cast p).mp hmem, hc, ?_, ?_⟩
    · intro q hq hqc
      exact hmax q ((mem_isort lenDescLe cast q).mpr hq) hqc
    · rw [pickBase, hp]
  · intro hex
    obtain ⟨p, hp, hpc⟩ := hex
    have := firstMatching_isSome (isort lenDescLe cast) base
      ⟨p, (mem_isort lenDescLe cast p).mpr hp, hpc⟩
    exact Option.isSome_iff_exists.mp this

/-- Witness for C6: a tagged title `"AB [Лаб]"` with the overlapping
keys `"A"` and `"AB"` both matching; the longer key wins and the tag is
re-appended. -/
theorem C6_canonicalization_witness :
    get_class_name (['A', 'B'] ++ (if true then sepBr ++ "Лаб]".data else []))
        [(['A'], ['S']), (['A', 'B'], ['L'])]
      = pickBase ['A', 'B'] [(['A'], ['S']), (['A', 'B'], ['L'])]
          ++ (if true then sepBr ++ "Лаб]".data else []) :=
  (C6_canonicalization [(['A'], ['S']), (['A', 'B'], ['L'])]
      ['A', 'B'] "Лаб]".data true (by decide) (by decide)).1

/-- C9 counterexample to the claimed effective set: with configured
exclusions `{"A"}` and mapping `{"A": "B", "B": "C"}`, the code's loop
cascades (it adds `"B"`, then sees the key `"B"` in the grown set and
adds `"C"`), so an entry titled `"C"` is filtered out although the
claim's effective set (configured plus aliases of configured-excluded
keys) does not contain `"C"`. -/
theorem C9_counterexample :
    filter_excluded [mkScheduleEntry ['C'] 0 ['R'] 0 0 ['T']] [['A']]
        [(['A'], ['B']), (['B'], ['C'])] = [] ∧
    listHas (claim_excluded [['A']] [(['A'], ['B']), (['B'], ['C'])])
        (base_class_name ['C']) = false := by
  decide

/-- C9 (amended): provided no alias value coincides with a mapping key
(no cascading), an entry survives the exclusion filter iff its base
name — the title cut at the first `" ["`, with a trailing group token
stripped — is absent from the effective set, which is exactly the
configured set plus the alias of every configured-excluded key. -/
theorem C9_exclusion_filter (excluded : List (List Char))
    (cast : List (List Char × List Char)) (entries : List ScheduleEntry)
    (e : ScheduleEntry)
    (hkv : ∀ p ∈ cast, ∀ q ∈ cast, ¬ p.1 = q.2) :
    e ∈ filter_excluded entries excluded cast
      ↔ e ∈ entries ∧
        listHas (claim_excluded excluded cast) (base_class_name e.class_name)
          = false := by
  rw [filter_excluded, effective_excluded_eq_claim excluded cast hkv, List.mem_filter]
  simp

/-- Witness for C9: a kept entry (title `"МПСиС [Лек] ИВТ-24М"`, base
name `"МПСиС"`) against exclusions `{"Практическая подготовка"}` and the
default alias map restricted to one pair. -/
theorem C9_exclusion_filter_witness :
    mkScheduleEntry "МПСиС [Лек] ИВТ-24М".data 0 ['R'] 0 0 ['T']
        ∈ filter_excluded [mkScheduleEntry "МПСиС [Лек] ИВТ-24М".data 0 ['R'] 0 0 ['T']]
            ["Практическая подготовка".data]
            [("Микропроцессорные средства и системы".data, "МПСиС".data)]
      ↔ mkScheduleEntry "МПСиС [Лек] ИВТ-24М".data 0 ['R'] 0 0 ['T']
          ∈ [mkScheduleEntry "МПСиС [Лек] ИВТ-24М".data 0 ['R'] 0 0 ['T']] ∧
        listHas (claim_excluded ["Практическая подготовка".data]
            [("Микропроцессорные средства и системы".data, "МПСиС".data)])
          (base_class_name
            (mkScheduleEntry "МПСиС [Лек] ИВТ-24М".data 0 ['R'] 0 0 ['T']).class_name)
          = false :=
  C9_exclusion_filter ["Практическая подготовка".data]
    [("Микропроцессорные средства и системы".data, "МПСиС".data)]
    [mkScheduleEntry "МПСиС [Лек] ИВТ-24М".data 0 ['R'] 0 0 ['T']]
    (mkScheduleEntry "МПСиС [Лек] ИВТ-24М".data 0 ['R'] 0 0 ['T'])
    (by decide)

theorem autumn_branch_eq (y : Int) :
    (if 5 ≤ weekdayOfDays (daysFromCivil y 9 1)
     then daysFromCivil y 9 1 + (7 - weekdayOfDays (daysFromCivil y 9 1))
     else daysFromCivil y 9 1) = autumnTermStart y := by
  have h0 := weekdayOfDays_nonneg (daysFromCivil y 9 1)
  have h7 := weekdayOfDays_lt (daysFromCivil y 9 1)
  rw [autumnTermStart]
  by_cases h : 5 ≤ weekdayOfDays (daysFromCivil y 9 1)
  · rw [if_pos h, if_pos (by omega)]
  · rw [if_neg h, if_neg (by omega)]

set_option maxRecDepth 8000 in
/-- C4: semester-start inference.  General part: on every label of the
form `<Adjective> семестр YYYY/YYYY` (adjective without a slash, years
four digit characters), the result is September 1 of the FIRST year
advanced to the following Monday when it falls on a weekend if the
label starts with `Осенний`, and the second Monday of February of the
SECOND year otherwise.  Concrete parts: the three cases named by the
spec, with the weekday facts that make them what they are. -/
theorem C4_semester_start :
    (∀ (adj y1 y2 : List Char),
        '/' ∉ adj → y1.length = 4 → y2.length = 4 →
        (∀ c ∈ y1, c.isDigit = true) → (∀ c ∈ y2, c.isDigit = true) →
        calculate_semester_start (adj ++ " семестр ".data ++ y1 ++ '/' :: y2)
          = some (if ("Осенний".data).isPrefixOf
                      (adj ++ " семестр ".data ++ y1 ++ '/' :: y2)
                  then autumnTermStart (digitsVal y1)
                  else secondMondayOfFebruary (digitsVal y2))) ∧
    (∀ y : Int, weekdayOfDays (secondMondayOfFebruary y) = 0) ∧
    calculate_semester_start "Осенний семестр 2025/2026".data
        = some (daysFromCivil 2025 9 1) ∧
    weekdayOfDays (daysFromCivil 2025 9 1) = 0 ∧
    calculate_semester_start "Осенний семестр 2024/2025".data
        = some (daysFromCivil 2024 9 2) ∧
    weekdayOfDays (daysFromCivil 2024 9 1) = 6 ∧
    calculate_semester_start "Весенний семестр 2025/2026".data
        = some (daysFromCivil 2026 2 9) ∧
    secondMondayOfFebruary 2026 = daysFromCivil 2026 2 9 := by
  refine ⟨?_, ?_, by decide, by decide, by decide, by decide, by decide, by decide⟩
  · intro adj y1 y2 hadj h1 h2 hd1 hd2
    have hpre : '/' ∉ adj ++ " семестр ".data ++ y1 := by
      intro hm
      rcases List.mem_append.mp hm with hm | hm
      · rcases List.mem_append.mp hm with hm | hm
        · exact hadj hm
        · revert hm
          decide
      · exact absurd (hd1 '/' hm) (by decide)
    have hfind : pyFindSlash ((adj ++ " семестр ".data ++ y1) ++ '/' :: y2)
        = ((adj ++ " семестр ".data ++ y1).length : Int) :=
      pyFindSlash_append _ y2 hpre
    have hy1ne : y1 ≠ [] := by
      intro h0
      rw [h0] at h1
      exact absurd h1 (by decide)
    have hy2ne : y2 ≠ [] := by
      intro h0
      rw [h0] at h2
      exact absurd h2 (by decide)
    have hy1parse : parseDigits y1 = some (digitsVal y1) := by
      rw [parseDigits, if_pos ⟨hy1ne, List.all_eq_true.mpr hd1⟩]
    have hy2parse : parseDigits y2 = some (digitsVal y2) := by
      rw [parseDigits, if_pos ⟨hy2ne, List.all_eq_true.mpr hd2⟩]
    have hsliceA : pySlice (adj ++ " семестр ".data ++ y1 ++ '/' :: y2)
        (((adj ++ " семестр ".data ++ y1).length : Int) - 4)
        (((adj ++ " семестр ".data ++ y1).length : Int) - 4 + 4) = y1 := by
      have h0 := pySlice_of_append (adj ++ " семестр ".data) y1 ('/' :: y2)
      rw [show ((adj ++ " семестр ".data ++ y1).length : Int) - 4
          = ((adj ++ " семестр ".data).length : Int) by
        push_cast [List.length_append, h1]
        ring]
      rw [show ((adj ++ " семестр ".data).length : Int) + 4
          = ((adj ++ " семестр ".data).length : Int) + (y1.length : Int) by
        rw [h1]
        push_cast
        ring]
      exact h0
    have hsliceS : pySlice (adj ++ " семестр ".data ++ y1 ++ '/' :: y2)
        (((adj ++ " семестр ".data ++ y1).length : Int) + 1)
        (((adj ++ " семестр ".data ++ y1).length : Int) + 1 + 4) = y2 := by
      have h0 := pySlice_of_append ((adj ++ " семестр ".data ++ y1) ++ ['/']) y2 []
      rw [show ((adj ++ " семестр ".data ++ y1) ++ ['/']) ++ y2 ++ []
          = adj ++ " семестр ".data ++ y1 ++ '/' :: y2 by simp] at h0
      rw [show (((adj ++ " семестр ".data ++ y1) ++ ['/']).length : Int)
          = ((adj ++ " семестр ".data ++ y1).length : Int) + 1 by
        push_cast [List.length_append, List.length_cons, List.length_nil]
        ring] at h0
      rw [show (y2.length : Int) = (4 : Int) by rw [h2]; rfl] at h0
      exact h0
    simp only [calculate_semester_start]
    rw [hfind]
    by_cases haut : ("Осенний".data).isPrefixOf
        (adj ++ " семестр ".data ++ y1 ++ '/' :: y2) = true
    · rw [if_pos haut, if_pos haut, hsliceA, hy1parse]
      simp only [Option.map]
      exact congrArg some (autumn_branch_eq (digitsVal y1))
    · rw [if_neg haut, if_neg haut, hsliceS, hy2parse]
      simp only [Option.map]
      rfl
  · intro y
    have h := untilMonday_weekday (daysFromCivil y 2 1)
    rw [secondMondayOfFebruary]
    unfold weekdayOfDays at h ⊢
    omega

set_option maxRecDepth 8000 in
/-- Witness for C4: the general rule applied to the concrete label
parts of `"Осенний семестр 2025/2026"`. -/
theorem C4_semester_start_witness :
    calculate_semester_start
        ("Осенний".data ++ " семестр ".data ++ "2025".data ++ '/' :: "2026".data)
      = some (if ("Осенний".data).isPrefixOf
                  ("Осенний".data ++ " семестр ".data ++ "2025".data
                    ++ '/' :: "2026".data)
              then autumnTermStart (digitsVal "2025".data)
              else secondMondayOfFebruary (digitsVal "2026".data)) :=
  C4_semester_start.1 "Осенний".data "2025".data "2026".data
    (by decide) (by decide) (by decide) (by decide) (by decide)
